import Mathlib

/-!
Verification development for the distributed Kangaroo DLP search engine.

The async DP pipeline is embedded from the source file DPQueue.h, which
contains two complete versions of the DPQueue class: the first without the
batching delay in pop_batch (modelled here as pop_batch1) and the second
with a 50 ms batching wait (modelled as pop_batch2).  The pthread branch is
the one embedded; mutex-held segments become atomic steps, and a condition
wait is modelled by an environment oracle: each wait is described by the
list of queue operations other threads performed while the mutex was
released, together with a flag saying whether the wait ended in ETIMEDOUT.
An exhausted oracle is read as a timed-out wait.

The DP store insert (HashTable.cpp Add) and the wire serialization
(Network.cpp) are not part of the included sources, so those operations are
modelled from the specification, as marked in their doc comments.
-/

namespace Kangaroo

/-- ITEM structure from the GPU engine header: a distinguished point with
x-coordinate, travelled distance d, kangaroo identifier kIdx (whose parity
encodes the herd) and the auxiliary field h.  The 256-bit, 192-bit and
64-bit machine integers are modelled as Nat. -/
structure ITEM where
  x : Nat
  d : Nat
  kIdx : Nat
  h : Nat
deriving DecidableEq, Repr

/-- DPITEM structure from DPQueue.h: a queued DP together with the
identifiers of the producing thread and GPU. -/
structure DPITEM where
  dp : ITEM
  threadId : Nat
  gpuId : Nat
deriving DecidableEq, Repr

/-- State of the DPQueue from DPQueue.h: the FIFO of pending DPITEMs, the
shutdown flag and the two statistics counters. -/
structure DPQueue where
  queue : List DPITEM
  shutdown : Bool
  totalPushed : Nat
  totalPopped : Nat
deriving DecidableEq, Repr

/-- Constructor of DPQueue: empty queue, shutdown cleared, both counters
zero. -/
def DPQueue.init : DPQueue :=
  { queue := [], shutdown := false, totalPushed := 0, totalPopped := 0 }

/-- DPQueue.push from DPQueue.h: wraps the DP in a DPITEM, appends it to the
queue and bumps totalPushed (one mutex-held step). -/
def DPQueue.push (q : DPQueue) (dp : ITEM) (threadId gpuId : Nat) : DPQueue :=
  { q with queue := q.queue ++ [⟨dp, threadId, gpuId⟩],
           totalPushed := q.totalPushed + 1 }

/-- DPQueue.push_batch from DPQueue.h: returns immediately on an empty
batch, otherwise appends every DP wrapped as a DPITEM and adds the batch
size to totalPushed (one mutex-held step). -/
def DPQueue.push_batch (q : DPQueue) (dps : List ITEM) (threadId gpuId : Nat) : DPQueue :=
  if dps.isEmpty then q
  else
    { q with queue := q.queue ++ dps.map (fun dp => ⟨dp, threadId, gpuId⟩),
             totalPushed := q.totalPushed + dps.length }

/-- DPQueue.requestShutdown from DPQueue.h: sets the shutdown flag under the
mutex (the condition broadcast only affects liveness and has no state). -/
def DPQueue.requestShutdown (q : DPQueue) : DPQueue :=
  { q with shutdown := true }

/-- Queue operations that other threads can perform while pop_batch has the
mutex released during a condition wait. -/
inductive QOp where
  | push (dp : ITEM) (threadId gpuId : Nat)
  | pushBatch (dps : List ITEM) (threadId gpuId : Nat)
  | reqShutdown
deriving Repr

/-- Interpretation of a single QOp on the queue state. -/
def applyOp (q : DPQueue) : QOp → DPQueue
  | .push dp t g => q.push dp t g
  | .pushBatch dps t g => q.push_batch dps t g
  | .reqShutdown => q.requestShutdown

/-- Interpretation of a list of QOps, first to last. -/
def applyOps (q : DPQueue) (ops : List QOp) : DPQueue :=
  ops.foldl applyOp q

/-- DPITEMs enqueued by a single QOp, in queue order. -/
def pushedOfOp : QOp → List DPITEM
  | .push dp t g => [⟨dp, t, g⟩]
  | .pushBatch dps t g => dps.map (fun dp => ⟨dp, t, g⟩)
  | .reqShutdown => []

/-- DPITEMs enqueued by a list of QOps, in queue order. -/
def pushedOfOps (ops : List QOp) : List DPITEM :=
  (ops.map pushedOfOp).flatten

/-- Environment oracle entry for one condition wait: the operations other
threads performed while the mutex was released, and whether the wait
returned ETIMEDOUT. -/
abbrev WaitEv := List QOp × Bool

/-- Drain loop shared by both pop_batch versions, from DPQueue.h: while the
queue is non-empty and the batch holds fewer than maxCount items, move the
front DPITEM into the batch and bump totalPopped.  Returns the remaining
queue, the extended batch and the new totalPopped. -/
def popLoop : List DPITEM → List DPITEM → Nat → Nat → List DPITEM × List DPITEM × Nat
  | [], dps, _, tp => ([], dps, tp)
  | item :: rest, dps, maxCount, tp =>
    if dps.length < maxCount then popLoop rest (dps ++ [item]) maxCount (tp + 1)
    else (item :: rest, dps, tp)

/-- First wait loop of pop_batch from DPQueue.h: while the queue is empty
and shutdown is not set, perform a timed condition wait; a timed-out wait
makes pop_batch return false.  The third component records the DPITEMs the
environment pushed during the consumed waits. -/
def firstWaitLoop (q : DPQueue) : List WaitEv → DPQueue × Bool × List DPITEM
  | [] => if q.queue = [] ∧ q.shutdown = false then (q, true, []) else (q, false, [])
  | w :: rest =>
    if q.queue = [] ∧ q.shutdown = false then
      let q1 := applyOps q w.1
      if w.2 then (q1, true, pushedOfOps w.1)
      else
        let r := firstWaitLoop q1 rest
        (r.1, r.2.1, pushedOfOps w.1 ++ r.2.2)
    else (q, false, [])

/-- Fixed batching window of the second pop_batch version in DPQueue.h
(const int batching_delay_ms = 50). -/
def batching_delay_ms : Nat := 50

/-- Batching loop of the second pop_batch version in DPQueue.h: while the
batch is not full and shutdown is not set, wait up to batching_delay_ms for
more DPs; a timed-out wait sends what was collected, otherwise the newly
arrived DPs are drained and the loop repeats until the batch is full.  The
third component records the DPITEMs pushed during the consumed waits. -/
def batchLoop (maxCount : Nat) : DPQueue → List DPITEM → List WaitEv → DPQueue × List DPITEM × List DPITEM
  | q, dps, [] => (q, dps, [])
  | q, dps, w :: rest =>
    if dps.length < maxCount ∧ q.shutdown = false then
      let q1 := applyOps q w.1
      if w.2 then (q1, dps, pushedOfOps w.1)
      else
        let p := popLoop q1.queue dps maxCount q1.totalPopped
        let q2 : DPQueue := { q1 with queue := p.1, totalPopped := p.2.2 }
        if maxCount ≤ p.2.1.length then (q2, p.2.1, pushedOfOps w.1)
        else
          let r := batchLoop maxCount q2 p.2.1 rest
          (r.1, r.2.1, pushedOfOps w.1 ++ r.2.2)
    else (q, dps, [])

/-- pop_batch of the first DPQueue version in DPQueue.h (no batching wait):
wait for a first DP or shutdown, return false on timeout or on shutdown with
a drained queue, otherwise drain up to maxCount items and return whether the
batch is non-empty.  Result: new state, batch, return value, and the ghost
list of DPITEMs the environment pushed during consumed waits. -/
def pop_batch1 (q : DPQueue) (maxCount : Nat) (waits : List WaitEv) :
    DPQueue × List DPITEM × Bool × List DPITEM :=
  let r := firstWaitLoop q waits
  if r.2.1 then (r.1, [], false, r.2.2)
  else if r.1.shutdown = true ∧ r.1.queue = [] then (r.1, [], false, r.2.2)
  else
    let p := popLoop r.1.queue [] maxCount r.1.totalPopped
    ({ r.1 with queue := p.1, totalPopped := p.2.2 }, p.2.1, !p.2.1.isEmpty, r.2.2)

/-- pop_batch of the second DPQueue version in DPQueue.h: same as
pop_batch1, but after the initial drain the batching loop waits up to
batching_delay_ms for more DPs, repeating until the batch is full or a
delay elapses without new arrivals. -/
def pop_batch2 (q : DPQueue) (maxCount : Nat) (waits1 waits2 : List WaitEv) :
    DPQueue × List DPITEM × Bool × List DPITEM :=
  let r := firstWaitLoop q waits1
  if r.2.1 then (r.1, [], false, r.2.2)
  else if r.1.shutdown = true ∧ r.1.queue = [] then (r.1, [], false, r.2.2)
  else
    let p := popLoop r.1.queue [] maxCount r.1.totalPopped
    let q2 : DPQueue := { r.1 with queue := p.1, totalPopped := p.2.2 }
    let b := batchLoop maxCount q2 p.2.1 waits2
    (b.1, b.2.1, !b.2.1.isEmpty, r.2.2 ++ b.2.2)

/-- Whole-pipeline operations: producer-side queue operations and the two
pop_batch variants run by the network thread. -/
inductive FullOp where
  | base (op : QOp)
  | pop1 (maxCount : Nat) (waits : List WaitEv)
  | pop2 (maxCount : Nat) (waits1 waits2 : List WaitEv)

/-- One pipeline step over (queue state, log of all pushed DPITEMs in push
order, log of all popped DPITEMs in pop order). -/
def runFullOp : DPQueue × List DPITEM × List DPITEM → FullOp → DPQueue × List DPITEM × List DPITEM
  | (q, pushed, popped), .base op => (applyOp q op, pushed ++ pushedOfOp op, popped)
  | (q, pushed, popped), .pop1 mc w =>
    let r := pop_batch1 q mc w
    (r.1, pushed ++ r.2.2.2, popped ++ r.2.1)
  | (q, pushed, popped), .pop2 mc w1 w2 =>
    let r := pop_batch2 q mc w1 w2
    (r.1, pushed ++ r.2.2.2, popped ++ r.2.1)

/-- Run a pipeline trace from the freshly constructed queue with empty
logs. -/
def runFull (ops : List FullOp) : DPQueue × List DPITEM × List DPITEM :=
  ops.foldl runFullOp (DPQueue.init, [], [])

/-! DP store (component D).  HashTable.cpp is not part of the included
sources; the insert operation is modelled from the specification. -/

/-- Herds of kangaroos. -/
inductive Herd where
  | TAME
  | WILD
deriving DecidableEq, Repr

/-- Herd derivation from the specification: herd := kIdx & 1, even = TAME,
odd = WILD.  kIdx parity is the sole source of herd truth. -/
def herdOfKIdx (kIdx : Nat) : Herd :=
  if kIdx &&& 1 = 0 then .TAME else .WILD

/-- Stored DP entry of the DP store: full x-coordinate, distance and kIdx
(the herd is always derived from kIdx).  The bucket-index and x-suffix
decomposition of x is injective, so entries carry the full x here and an
x-match means equality of the full coordinate. -/
structure Entry where
  x : Nat
  dist : Nat
  kIdx : Nat
deriving DecidableEq, Repr

/-- Cross-herd collision event: the matching tame and wild entries. -/
structure CrossEvent where
  tame : Entry
  wild : Entry
deriving DecidableEq, Repr

/-- Result codes of the DP store insert, a closed variant set. -/
inductive AddResult where
  | ADD_OK
  | SAME_HERD_DUPLICATE
  | CROSS_HERD_COLLISION
deriving DecidableEq, Repr

/-- DP store state: entries (at most one per x), the same-herd collision
counter, and the emitted cross-herd collision events in order. -/
structure DPStore where
  entries : List Entry
  sameHerdCount : Nat
  events : List CrossEvent
deriving DecidableEq, Repr

/-- Empty DP store. -/
def DPStore.init : DPStore :=
  { entries := [], sameHerdCount := 0, events := [] }

/-- Lookup of the entry sharing the full x-coordinate (the model of the
bucket binary search, which matches on the full x via bucket index plus
suffix). -/
def findX (es : List Entry) (x : Nat) : Option Entry :=
  es.find? (fun e => e.x == x)

/-- Insertion at the sorted position, keyed by x (the model of the sorted
bucket insert). -/
def insertByX (dp : Entry) : List Entry → List Entry
  | [] => [dp]
  | e :: es => if dp.x ≤ e.x then dp :: e :: es else e :: insertByX dp es

/-- Replacement of the entry at x by a new entry. -/
def replaceAtX (x : Nat) (newE : Entry) : List Entry → List Entry
  | [] => []
  | e :: es => if e.x == x then newE :: es else e :: replaceAtX x newE es

/-- Cross-herd event construction: the event pairs the tame and the wild
side by kIdx parity, regardless of which of stored/new is the tame one. -/
def mkCrossEvent (stored newE : Entry) : CrossEvent :=
  if herdOfKIdx stored.kIdx = .TAME then ⟨stored, newE⟩ else ⟨newE, stored⟩

/-- Modelled from the spec: HashTable.cpp Add (the DP store insert) is not
in the included sources; this follows the contract of section 4.D.  No
x-match inserts the entry at its sorted position (ADD_OK).  An x-match with
equal herd and equal distance is a true duplicate and is ignored; with equal
herd and differing distance the same-herd counter is incremented, no event
is emitted, and the entry is overwritten with the one of shorter distance
(SAME_HERD_DUPLICATE).  An x-match with differing herd emits a cross-herd
collision event pairing tame and wild by kIdx parity
(CROSS_HERD_COLLISION). -/
def DPStore.Add (s : DPStore) (dp : Entry) : DPStore × AddResult :=
  match findX s.entries dp.x with
  | none => ({ s with entries := insertByX dp s.entries }, .ADD_OK)
  | some stored =>
    if herdOfKIdx stored.kIdx = herdOfKIdx dp.kIdx then
      if stored.dist = dp.dist then (s, .SAME_HERD_DUPLICATE)
      else
        ({ s with
            entries := replaceAtX dp.x (if dp.dist < stored.dist then dp else stored) s.entries,
            sameHerdCount := s.sameHerdCount + 1 }, .SAME_HERD_DUPLICATE)
    else
      ({ s with events := s.events ++ [mkCrossEvent stored dp] }, .CROSS_HERD_COLLISION)

/-- Sequential processing of a list of DPs by the store. -/
def runAdds (s : DPStore) (dps : List Entry) : DPStore :=
  dps.foldl (fun s dp => (DPStore.Add s dp).1) s

/-- Cross-herd events recorded for a given x-coordinate. -/
def eventsAtX (s : DPStore) (x : Nat) : List CrossEvent :=
  s.events.filter (fun ev => ev.tame.x == x)

/-! Wire serialization (section 6).  Network.cpp is not part of the
included sources; the DP entry and DP_BATCH frame layout are modelled from
the specification, with ITEM_SIZE taken from the GPU engine header. -/

/-- ITEM_SIZE from the GPU engine header: x(32) + d(24) + idx(8) +
padding(4) = 68 bytes. -/
def ITEM_SIZE : Nat := 68

/-- Message type tag of a DP_BATCH frame (0x01). -/
def MSG_DP_BATCH : Nat := 1

/-- Big-endian encoding of a value into a fixed number of bytes, most
significant byte first. -/
def natToBytesBE : Nat → Nat → List Nat
  | 0, _ => []
  | w + 1, v => natToBytesBE w (v / 256) ++ [v % 256]

/-- Big-endian decoding of a byte list into a Nat. -/
def bytesToNatBE (bs : List Nat) : Nat :=
  bs.foldl (fun acc b => acc * 256 + b) 0

/-- Modelled from the spec: serialization of one DP entry on the wire,
Network.cpp not being in the included sources.  Layout x(32) + dist(24) +
kIdx(8) + pad(4), big-endian; the herd is not transmitted. -/
def encodeDP (dp : ITEM) : List Nat :=
  natToBytesBE 32 dp.x ++ natToBytesBE 24 dp.d ++ natToBytesBE 8 dp.kIdx ++ [0, 0, 0, 0]

/-- Modelled from the spec: deserialization of one 68-byte DP entry,
recovering (x, dist, kIdx). -/
def decodeDP (bs : List Nat) : Nat × Nat × Nat :=
  (bytesToNatBE (bs.take 32),
   bytesToNatBE ((bs.drop 32).take 24),
   bytesToNatBE (((bs.drop 32).drop 24).take 8))

/-- Modelled from the spec: a framed DP_BATCH message, MSG_TYPE(1) then
LENGTH(4) = 4 + 68 * COUNT then COUNT(4) then the serialized entries. -/
def encodeDPBatch (dps : List ITEM) : List Nat :=
  [MSG_DP_BATCH] ++ natToBytesBE 4 (4 + ITEM_SIZE * dps.length)
    ++ natToBytesBE 4 dps.length ++ (dps.map encodeDP).flatten

/-- Pipeline invariant: the pushed log equals the popped log followed by
the current queue content, and the counters equal the log lengths. -/
def PipeInv (s : DPQueue × List DPITEM × List DPITEM) : Prop :=
  s.2.1 = s.2.2 ++ s.1.queue ∧
  s.1.totalPushed = s.2.1.length ∧
  s.1.totalPopped = s.2.2.length

/-- Sample DPITEM values used by the concrete witnesses below. -/
def it1 : DPITEM := ⟨⟨1, 2, 3, 4⟩, 5, 6⟩

def it2 : DPITEM := ⟨⟨7, 8, 9, 10⟩, 5, 6⟩

def it3 : DPITEM := ⟨⟨11, 12, 13, 14⟩, 5, 6⟩

/-! Lemmas about the queue operations. -/

theorem pushedOfOps_nil : pushedOfOps [] = [] := rfl

theorem pushedOfOps_cons (op : QOp) (ops : List QOp) :
    pushedOfOps (op :: ops) = pushedOfOp op ++ pushedOfOps ops := by
  simp [pushedOfOps]

theorem applyOp_queue (q : DPQueue) (op : QOp) :
    (applyOp q op).queue = q.queue ++ pushedOfOp op := by
  cases op with
  | push dp t g => rfl
  | pushBatch dps t g =>
    cases dps <;> simp [applyOp, DPQueue.push_batch, pushedOfOp]
  | reqShutdown => simp [applyOp, DPQueue.requestShutdown, pushedOfOp]

theorem applyOp_totalPushed (q : DPQueue) (op : QOp) :
    (applyOp q op).totalPushed = q.totalPushed + (pushedOfOp op).length := by
  cases op with
  | push dp t g => rfl
  | pushBatch dps t g =>
    cases dps <;> simp [applyOp, DPQueue.push_batch, pushedOfOp]
  | reqShutdown => simp [applyOp, DPQueue.requestShutdown, pushedOfOp]

theorem applyOp_totalPopped (q : DPQueue) (op : QOp) :
    (applyOp q op).totalPopped = q.totalPopped := by
  cases op with
  | push dp t g => rfl
  | pushBatch dps t g =>
    cases dps <;> simp [applyOp, DPQueue.push_batch]
  | reqShutdown => rfl

theorem applyOps_queue (ops : List QOp) (q : DPQueue) :
    (applyOps q ops).queue = q.queue ++ pushedOfOps ops := by
  induction ops generalizing q with
  | nil => simp [applyOps, pushedOfOps]
  | cons op ops ih =>
    simp only [applyOps, List.foldl_cons] at *
    rw [ih, applyOp_queue, pushedOfOps_cons, List.append_assoc]

theorem applyOps_totalPushed (ops : List QOp) (q : DPQueue) :
    (applyOps q ops).totalPushed = q.totalPushed + (pushedOfOps ops).length := by
  induction ops generalizing q with
  | nil => simp [applyOps, pushedOfOps]
  | cons op ops ih =>
    simp only [applyOps, List.foldl_cons] at *
    rw [ih, applyOp_totalPushed, pushedOfOps_cons, List.length_append]
    omega

theorem applyOps_totalPopped (ops : List QOp) (q : DPQueue) :
    (applyOps q ops).totalPopped = q.totalPopped := by
  induction ops generalizing q with
  | nil => simp [applyOps]
  | cons op ops ih =>
    simp only [applyOps, List.foldl_cons] at *
    rw [ih, applyOp_totalPopped]

/-- Closed form of the drain loop: it moves min (maxCount - batch size)
(queue length) items from the front of the queue to the back of the batch,
bumping totalPopped by the same amount. -/
theorem popLoop_eq (queue : List DPITEM) (dps : List DPITEM) (maxCount tp : Nat) :
    popLoop queue dps maxCount tp =
      (queue.drop (min (maxCount - dps.length) queue.length),
       dps ++ queue.take (min (maxCount - dps.length) queue.length),
       tp + min (maxCount - dps.length) queue.length) := by
  induction queue generalizing dps tp with
  | nil => simp [popLoop]
  | cons item rest ih =>
    by_cases h : dps.length < maxCount
    · rw [popLoop, if_pos h, ih]
      have hm : min (maxCount - dps.length) (rest.length + 1)
          = min (maxCount - (dps.length + 1)) rest.length + 1 := by omega
      simp only [List.length_append, List.length_cons, List.length_singleton,
        List.length_nil, Nat.zero_add, hm, List.drop_succ_cons, List.take_succ_cons,
        List.append_assoc, List.singleton_append, Prod.mk.injEq]
      exact ⟨trivial, trivial, by omega⟩
    · rw [popLoop, if_neg h]
      have h0 : maxCount - dps.length = 0 := by omega
      simp [h0]

/-- The first wait loop only appends environment pushes to the queue and
never pops. -/
theorem firstWaitLoop_spec (waits : List WaitEv) (q : DPQueue) :
    (firstWaitLoop q waits).1.queue = q.queue ++ (firstWaitLoop q waits).2.2 ∧
    (firstWaitLoop q waits).1.totalPushed
      = q.totalPushed + (firstWaitLoop q waits).2.2.length ∧
    (firstWaitLoop q waits).1.totalPopped = q.totalPopped := by
  induction waits generalizing q with
  | nil =>
    by_cases h : q.queue = [] ∧ q.shutdown = false <;> simp [firstWaitLoop, h]
  | cons w rest ih =>
    by_cases h : q.queue = [] ∧ q.shutdown = false
    · rw [firstWaitLoop, if_pos h]
      by_cases hw : w.2
      · simp only [hw, if_true]
        exact ⟨applyOps_queue _ _, applyOps_totalPushed _ _, applyOps_totalPopped _ _⟩
      · simp only [hw, if_false, Bool.false_eq_true]
        obtain ⟨h1, h2, h3⟩ := ih (applyOps q w.1)
        refine ⟨?_, ?_, ?_⟩
        · rw [h1, applyOps_queue, List.append_assoc]
        · rw [h2, applyOps_totalPushed, List.length_append]; omega
        · rw [h3, applyOps_totalPopped]
    · rw [firstWaitLoop, if_neg h]
      simp

/-- If the queue is non-empty, the first wait loop returns at once without
waiting. -/
theorem firstWaitLoop_of_ne (waits : List WaitEv) (q : DPQueue) (h : q.queue ≠ []) :
    firstWaitLoop q waits = (q, false, []) := by
  have hc : ¬(q.queue = [] ∧ q.shutdown = false) := fun hx => h hx.1
  cases waits with
  | nil => rw [firstWaitLoop, if_neg hc]
  | cons w rest => rw [firstWaitLoop, if_neg hc]

/-- If shutdown is already set, the first wait loop returns at once without
waiting. -/
theorem firstWaitLoop_of_shutdown (waits : List WaitEv) (q : DPQueue)
    (h : q.shutdown = true) :
    firstWaitLoop q waits = (q, false, []) := by
  have hc : ¬(q.queue = [] ∧ q.shutdown = false) := by
    intro hx; rw [h] at hx; exact absurd hx.2 (by simp)
  cases waits with
  | nil => rw [firstWaitLoop, if_neg hc]
  | cons w rest => rw [firstWaitLoop, if_neg hc]

/-- The batching loop returns at once when the batch is already full. -/
theorem batchLoop_full (maxCount : Nat) (q : DPQueue) (dps : List DPITEM)
    (ws : List WaitEv) (h : maxCount ≤ dps.length) :
    batchLoop maxCount q dps ws = (q, dps, []) := by
  have hc : ¬(dps.length < maxCount ∧ q.shutdown = false) := fun hx => by omega
  cases ws with
  | nil => rfl
  | cons w rest => rw [batchLoop, if_neg hc]

/-- The batching loop returns at once when shutdown is set. -/
theorem batchLoop_shutdown (maxCount : Nat) (q : DPQueue) (dps : List DPITEM)
    (ws : List WaitEv) (h : q.shutdown = true) :
    batchLoop maxCount q dps ws = (q, dps, []) := by
  have hc : ¬(dps.length < maxCount ∧ q.shutdown = false) := by
    intro hx; rw [h] at hx; exact absurd hx.2 (by simp)
  cases ws with
  | nil => rfl
  | cons w rest => rw [batchLoop, if_neg hc]

/-- Conservation spec of the batching loop: whatever it appends to the
batch was taken in order from the front of the queue extended by the
environment pushes it observed, with totalPopped and totalPushed advanced
accordingly. -/
theorem batchLoop_spec (maxCount : Nat) (ws : List WaitEv) (q : DPQueue)
    (dps : List DPITEM) :
    ∃ newPart,
      (batchLoop maxCount q dps ws).2.1 = dps ++ newPart ∧
      newPart ++ (batchLoop maxCount q dps ws).1.queue
        = q.queue ++ (batchLoop maxCount q dps ws).2.2 ∧
      (batchLoop maxCount q dps ws).1.totalPopped
        = q.totalPopped + newPart.length ∧
      (batchLoop maxCount q dps ws).1.totalPushed
        = q.totalPushed + (batchLoop maxCount q dps ws).2.2.length := by
  induction ws generalizing q dps with
  | nil => exact ⟨[], by simp [batchLoop]⟩
  | cons w rest ih =>
    by_cases hc : dps.length < maxCount ∧ q.shutdown = false
    · rw [batchLoop, if_pos hc]
      by_cases hw : w.2
      · simp only [hw, if_true]
        refine ⟨[], by simp, ?_, by simp [applyOps_totalPopped], ?_⟩
        · simpa using applyOps_queue w.1 q
        · exact applyOps_totalPushed w.1 q
      · simp only [hw, if_false, Bool.false_eq_true]
        set q1 := applyOps q w.1 with hq1
        have hq1q : q1.queue = q.queue ++ pushedOfOps w.1 := by
          rw [hq1]; exact applyOps_queue w.1 q
        have hq1push : q1.totalPushed = q.totalPushed + (pushedOfOps w.1).length := by
          rw [hq1]; exact applyOps_totalPushed w.1 q
        have hq1pop : q1.totalPopped = q.totalPopped := by
          rw [hq1]; exact applyOps_totalPopped w.1 q
        rw [popLoop_eq]
        set k := min (maxCount - dps.length) q1.queue.length with hk
        have hkle : k ≤ q1.queue.length := by omega
        by_cases hfull : maxCount ≤ (dps ++ q1.queue.take k).length
        · simp only [if_pos hfull]
          refine ⟨q1.queue.take k, rfl, ?_, ?_, ?_⟩
          · dsimp only
            rw [List.take_append_drop, hq1q]
          · dsimp only
            rw [hq1pop, List.length_take]
            omega
          · dsimp only
            exact hq1push
        · simp only [if_neg hfull]
          obtain ⟨np, h1, h2, h3, h4⟩ :=
            ih { q1 with queue := q1.queue.drop k,
                         totalPopped := q1.totalPopped + k } (dps ++ q1.queue.take k)
          dsimp only at h2 h3 h4
          refine ⟨q1.queue.take k ++ np, ?_, ?_, ?_, ?_⟩
          · dsimp only
            rw [h1, List.append_assoc]
          · dsimp only
            rw [List.append_assoc, h2, ← List.append_assoc, List.take_append_drop,
              hq1q, List.append_assoc]
          · dsimp only
            rw [h3, hq1pop]
            simp only [List.length_append, List.length_take]
            omega
          · dsimp only
            rw [h4, List.length_append]
            omega
    · have heq : batchLoop maxCount q dps (w :: rest) = (q, dps, []) := by
        rw [batchLoop, if_neg hc]
      exact ⟨[], by simp [heq]⟩

/-- Drain loop specialized to an empty starting batch. -/
theorem popLoop_nil_eq (queue : List DPITEM) (mc tp : Nat) :
    popLoop queue [] mc tp =
      (queue.drop (min mc queue.length),
       queue.take (min mc queue.length),
       tp + min mc queue.length) := by
  rw [popLoop_eq]
  simp

/-- Conservation spec of pop_batch1: the batch is taken in order from the
front of the queue extended by the environment pushes, and the counters
advance by the batch size and the pushed size. -/
theorem pop_batch1_spec (q : DPQueue) (mc : Nat) (w : List WaitEv) :
    (pop_batch1 q mc w).2.1 ++ (pop_batch1 q mc w).1.queue
      = q.queue ++ (pop_batch1 q mc w).2.2.2 ∧
    (pop_batch1 q mc w).1.totalPopped
      = q.totalPopped + (pop_batch1 q mc w).2.1.length ∧
    (pop_batch1 q mc w).1.totalPushed
      = q.totalPushed + (pop_batch1 q mc w).2.2.2.length := by
  obtain ⟨hq, hpush, hpop⟩ := firstWaitLoop_spec w q
  rw [pop_batch1]
  by_cases ht : (firstWaitLoop q w).2.1
  · simp only [ht, if_true]
    exact ⟨by simpa using hq, by simpa using hpop, hpush⟩
  · simp only [ht, if_false, Bool.false_eq_true]
    by_cases hs : (firstWaitLoop q w).1.shutdown = true ∧ (firstWaitLoop q w).1.queue = []
    · simp only [hs, if_true, if_pos hs]
      exact ⟨by simpa using hq, by simpa using hpop, hpush⟩
    · simp only [if_neg hs]
      rw [popLoop_eq]
      set k := min (mc - ([] : List DPITEM).length) (firstWaitLoop q w).1.queue.length with hk
      have hkle : k ≤ (firstWaitLoop q w).1.queue.length := by omega
      refine ⟨?_, ?_, ?_⟩
      · simp only [List.nil_append]
        rw [List.take_append_drop, hq]
      · simp only [List.nil_append, List.length_take]
        omega
      · simpa using hpush

/-- Conservation spec of pop_batch2, same statement as for pop_batch1. -/
theorem pop_batch2_spec (q : DPQueue) (mc : Nat) (w1 w2 : List WaitEv) :
    (pop_batch2 q mc w1 w2).2.1 ++ (pop_batch2 q mc w1 w2).1.queue
      = q.queue ++ (pop_batch2 q mc w1 w2).2.2.2 ∧
    (pop_batch2 q mc w1 w2).1.totalPopped
      = q.totalPopped + (pop_batch2 q mc w1 w2).2.1.length ∧
    (pop_batch2 q mc w1 w2).1.totalPushed
      = q.totalPushed + (pop_batch2 q mc w1 w2).2.2.2.length := by
  obtain ⟨hq, hpush, hpop⟩ := firstWaitLoop_spec w1 q
  rw [pop_batch2]
  by_cases ht : (firstWaitLoop q w1).2.1
  · simp only [ht, if_true]
    exact ⟨by simpa using hq, by simpa using hpop, hpush⟩
  · simp only [ht, if_false, Bool.false_eq_true]
    by_cases hs : (firstWaitLoop q w1).1.shutdown = true ∧ (firstWaitLoop q w1).1.queue = []
    · simp only [hs, if_true, if_pos hs]
      exact ⟨by simpa using hq, by simpa using hpop, hpush⟩
    · simp only [if_neg hs]
      rw [popLoop_nil_eq]
      dsimp only
      set m := min mc (firstWaitLoop q w1).1.queue.length with hm
      obtain ⟨np, h1, h2, h3, h4⟩ :=
        batchLoop_spec mc w2
          { (firstWaitLoop q w1).1 with
              queue := (firstWaitLoop q w1).1.queue.drop m,
              totalPopped := (firstWaitLoop q w1).1.totalPopped + m }
          ((firstWaitLoop q w1).1.queue.take m)
      dsimp only at h2 h3 h4
      refine ⟨?_, ?_, ?_⟩
      · rw [h1, List.append_assoc, h2, ← List.append_assoc, List.take_append_drop,
          hq, List.append_assoc]
      · rw [h1, h3]
        simp only [List.length_append, List.length_take]
        omega
      · rw [h4, hpush]
        simp only [List.length_append]
        omega

theorem runFullOp_inv (s : DPQueue × List DPITEM × List DPITEM) (op : FullOp)
    (h : PipeInv s) : PipeInv (runFullOp s op) := by
  obtain ⟨q, pushed, popped⟩ := s
  obtain ⟨h1, h2, h3⟩ := h
  dsimp only at h1 h2 h3
  cases op with
  | base op =>
    refine ⟨?_, ?_, ?_⟩
    · dsimp only [runFullOp]
      rw [applyOp_queue, h1, List.append_assoc]
    · dsimp only [runFullOp]
      rw [applyOp_totalPushed, h2, List.length_append]
    · dsimp only [runFullOp]
      rw [applyOp_totalPopped, h3]
  | pop1 mc w =>
    obtain ⟨g1, g2, g3⟩ := pop_batch1_spec q mc w
    refine ⟨?_, ?_, ?_⟩
    · dsimp only [runFullOp]
      rw [h1, List.append_assoc, ← g1, List.append_assoc]
    · dsimp only [runFullOp]
      rw [g3, h2, List.length_append]
    · dsimp only [runFullOp]
      rw [g2, h3, List.length_append]
  | pop2 mc w1 w2 =>
    obtain ⟨g1, g2, g3⟩ := pop_batch2_spec q mc w1 w2
    refine ⟨?_, ?_, ?_⟩
    · dsimp only [runFullOp]
      rw [h1, List.append_assoc, ← g1, List.append_assoc]
    · dsimp only [runFullOp]
      rw [g3, h2, List.length_append]
    · dsimp only [runFullOp]
      rw [g2, h3, List.length_append]

theorem runFull_inv (ops : List FullOp) : PipeInv (runFull ops) := by
  have base : PipeInv (DPQueue.init, [], []) := by
    exact ⟨rfl, rfl, rfl⟩
  rw [runFull]
  generalize hs : (DPQueue.init, ([] : List DPITEM), ([] : List DPITEM)) = s at base
  clear hs
  induction ops generalizing s with
  | nil => exact base
  | cons op ops ih => exact ih (runFullOp s op) (runFullOp_inv s op base)

/-- Claim C2: over every trace of push, push_batch and pop_batch operations
on the DP pipeline, the total number of items pushed minus the total popped
equals the queue depth at every quiescent point: totalPushed equals
totalPopped plus the queue length after any trace from the initial
state. -/
theorem c2_pipeline_conservation (ops : List FullOp) :
    (runFull ops).1.totalPushed
      = (runFull ops).1.totalPopped + (runFull ops).1.queue.length := by
  obtain ⟨h1, h2, h3⟩ := runFull_inv ops
  rw [h2, h3, h1, List.length_append]

/-- Claim C9: the DP queue is FIFO per producer.  Over every trace, the log
of popped DPITEMs (the concatenation of all batches returned by pop_batch,
in order) restricted to one producer (threadId, gpuId) is an initial
segment of the log of pushed DPITEMs restricted to that producer, so a
single producer's items are returned in exactly the order they were
pushed; ordering across producers is left unspecified. -/
theorem c9_fifo_per_producer (ops : List FullOp) (t g : Nat) :
    ∃ rest,
      (runFull ops).2.1.filter (fun it => it.threadId == t && it.gpuId == g)
        = (runFull ops).2.2.filter (fun it => it.threadId == t && it.gpuId == g)
            ++ rest := by
  obtain ⟨h1, _, _⟩ := runFull_inv ops
  exact ⟨(runFull ops).1.queue.filter (fun it => it.threadId == t && it.gpuId == g),
    by rw [h1, List.filter_append]⟩

/-! Lemmas about the DP store. -/

theorem findX_some {es : List Entry} {x : Nat} {e : Entry}
    (h : findX es x = some e) : e.x = x := by
  rw [findX] at h
  simpa using List.find?_some h

theorem findX_insertByX_of_ne (dp : Entry) (es : List Entry) (x : Nat)
    (hne : dp.x ≠ x) : findX (insertByX dp es) x = findX es x := by
  have hdp : (dp.x == x) = false := by simpa using hne
  induction es with
  | nil =>
    simp [insertByX, findX, hdp]
  | cons e es ih =>
    rw [insertByX]
    by_cases hle : dp.x ≤ e.x
    · rw [if_pos hle]
      rw [findX, List.find?_cons_of_neg _ (by simp [hdp])]
      rfl
    · rw [if_neg hle]
      rw [findX]
      cases hbe : (e.x == x) with
      | true =>
        rw [List.find?_cons_of_pos _ (by simp [hbe]), findX,
          List.find?_cons_of_pos _ (by simp [hbe])]
      | false =>
        rw [List.find?_cons_of_neg _ (by simp [hbe]), findX,
          List.find?_cons_of_neg _ (by simp [hbe])]
        rw [findX] at ih
        exact ih

theorem findX_insertByX_self (dp : Entry) (es : List Entry)
    (h : findX es dp.x = none) : findX (insertByX dp es) dp.x = some dp := by
  induction es with
  | nil =>
    simp [insertByX, findX]
  | cons e es ih =>
    rw [findX, List.find?_eq_none] at h
    have he : (e.x == dp.x) = false := by
      have := h e (by simp)
      simpa using this
    have hes : findX es dp.x = none := by
      rw [findX, List.find?_eq_none]
      intro a ha
      exact h a (by simp [ha])
    rw [insertByX]
    by_cases hle : dp.x ≤ e.x
    · rw [if_pos hle]
      rw [findX, List.find?_cons_of_pos _ (by simp)]
    · rw [if_neg hle]
      rw [findX, List.find?_cons_of_neg _ (by simp [he])]
      rw [findX] at ih
      exact ih hes

theorem findX_replaceAtX_of_ne (x : Nat) (newE : Entry) (es : List Entry)
    (x' : Nat) (hne : x ≠ x') (hnew : newE.x = x) :
    findX (replaceAtX x newE es) x' = findX es x' := by
  induction es with
  | nil => rfl
  | cons e es ih =>
    rw [replaceAtX]
    cases hbe : (e.x == x) with
    | true =>
      rw [if_pos rfl]
      have hex : e.x = x := by simpa using hbe
      have h1 : (newE.x == x') = false := by simp [hnew, hne]
      have h2 : (e.x == x') = false := by simp [hex, hne]
      rw [findX, List.find?_cons_of_neg _ (by simp [h1]), findX,
        List.find?_cons_of_neg _ (by simp [h2])]
    | false =>
      rw [if_neg (by simp [hbe])]
      rw [findX]
      cases hbe2 : (e.x == x') with
      | true =>
        rw [List.find?_cons_of_pos _ (by simp [hbe2]), findX,
          List.find?_cons_of_pos _ (by simp [hbe2])]
      | false =>
        rw [List.find?_cons_of_neg _ (by simp [hbe2]), findX,
          List.find?_cons_of_neg _ (by simp [hbe2])]
        rw [findX] at ih
        exact ih

theorem findX_replaceAtX_self (x : Nat) (newE : Entry) (es : List Entry)
    (e0 : Entry) (h : findX es x = some e0) (hnew : newE.x = x) :
    findX (replaceAtX x newE es) x = some newE := by
  induction es with
  | nil => simp [findX] at h
  | cons e es ih =>
    rw [replaceAtX]
    cases hbe : (e.x == x) with
    | true =>
      rw [if_pos rfl]
      rw [findX, List.find?_cons_of_pos _ (by simp [hnew])]
    | false =>
      rw [if_neg (by simp [hbe])]
      rw [findX, List.find?_cons_of_neg _ (by simp [hbe])]
      rw [findX, List.find?_cons_of_neg _ (by simp [hbe])] at h
      rw [findX] at ih
      exact ih h

theorem take_min_length {α : Type} (l : List α) (n : Nat) :
    l.take (min n l.length) = l.take n := by
  rcases Nat.le_total n l.length with h | h
  · rw [min_eq_left h]
  · rw [min_eq_right h, List.take_length, List.take_of_length_le h]

theorem drop_min_length {α : Type} (l : List α) (n : Nat) :
    l.drop (min n l.length) = l.drop n := by
  rcases Nat.le_total n l.length with h | h
  · rw [min_eq_left h]
  · rw [min_eq_right h, List.drop_length, List.drop_of_length_le h]

/-- Behavior of pop_batch2 when shutdown is already set: no wait happens,
the remaining queue content is drained up to maxCount, and an empty queue
yields an immediate empty false return. -/
theorem pop_batch2_of_shutdown (q : DPQueue) (mc : Nat) (w1 w2 : List WaitEv)
    (hs : q.shutdown = true) :
    pop_batch2 q mc w1 w2 =
      if q.queue = [] then (q, [], false, [])
      else
        ({ q with queue := q.queue.drop mc,
                  totalPopped := q.totalPopped + min mc q.queue.length },
         q.queue.take mc, !(q.queue.take mc).isEmpty, []) := by
  have hfw := firstWaitLoop_of_shutdown w1 q hs
  by_cases he : q.queue = []
  · rw [if_pos he]
    simp only [pop_batch2, hfw]
    simp [hs, he]
  · rw [if_neg he]
    simp only [pop_batch2, hfw]
    simp only [he, hs, and_true, and_false, if_false, Bool.false_eq_true, reduceIte]
    rw [popLoop_nil_eq]
    dsimp only
    rw [batchLoop_shutdown _ _ _ _ rfl]
    rw [take_min_length, drop_min_length]
    rfl

/-- Behavior of pop_batch1 when the queue is non-empty and shutdown is not
set: no wait happens and up to maxCount items are drained from the front of
the queue. -/
theorem pop_batch1_of_ready (q : DPQueue) (mc : Nat) (w : List WaitEv)
    (hs : q.shutdown = false) (hne : q.queue ≠ []) :
    pop_batch1 q mc w =
      ({ q with queue := q.queue.drop mc,
                totalPopped := q.totalPopped + min mc q.queue.length },
       q.queue.take mc, !(q.queue.take mc).isEmpty, []) := by
  have hfw := firstWaitLoop_of_ne w q hne
  simp only [pop_batch1, hfw]
  simp only [hne, hs, and_false, if_false, Bool.false_eq_true, reduceIte]
  rw [popLoop_nil_eq]
  dsimp only
  rw [take_min_length, drop_min_length]

/-- Behavior of pop_batch2 when the queue is non-empty and shutdown is not
set: no first wait happens, up to maxCount items are drained, then the
batching loop runs on the remainder. -/
theorem pop_batch2_of_ready (q : DPQueue) (mc : Nat) (w1 w2 : List WaitEv)
    (hs : q.shutdown = false) (hne : q.queue ≠ []) :
    pop_batch2 q mc w1 w2 =
      ((batchLoop mc
          { q with queue := q.queue.drop mc,
                   totalPopped := q.totalPopped + min mc q.queue.length }
          (q.queue.take mc) w2).1,
       (batchLoop mc
          { q with queue := q.queue.drop mc,
                   totalPopped := q.totalPopped + min mc q.queue.length }
          (q.queue.take mc) w2).2.1,
       !(batchLoop mc
          { q with queue := q.queue.drop mc,
                   totalPopped := q.totalPopped + min mc q.queue.length }
          (q.queue.take mc) w2).2.1.isEmpty,
       (batchLoop mc
          { q with queue := q.queue.drop mc,
                   totalPopped := q.totalPopped + min mc q.queue.length }
          (q.queue.take mc) w2).2.2) := by
  have hfw := firstWaitLoop_of_ne w1 q hne
  simp only [pop_batch2, hfw]
  simp only [hne, hs, and_false, if_false, Bool.false_eq_true, reduceIte]
  rw [popLoop_nil_eq]
  dsimp only
  rw [take_min_length, drop_min_length]
  rfl

/-- Claim C7: requestShutdown sets the flag (the wake broadcast has no
further state effect), and every subsequent pop_batch first drains up to
maxCount of the items remaining in the queue without waiting, then returns
false with empty outputs once the queue is drained. -/
theorem c7_shutdown_drains_then_empty (q : DPQueue) (mc : Nat) (w1 w2 : List WaitEv) :
    (DPQueue.requestShutdown q).shutdown = true ∧
    (DPQueue.requestShutdown q).queue = q.queue ∧
    (q.shutdown = true → q.queue = [] →
      pop_batch2 q mc w1 w2 = (q, [], false, [])) ∧
    (q.shutdown = true → q.queue ≠ [] →
      pop_batch2 q mc w1 w2 =
        ({ q with queue := q.queue.drop mc,
                  totalPopped := q.totalPopped + min mc q.queue.length },
         q.queue.take mc, !(q.queue.take mc).isEmpty, [])) ∧
    (q.shutdown = true → q.queue ≠ [] → 0 < mc →
      (pop_batch2 q mc w1 w2).2.2.1 = true) := by
  refine ⟨rfl, rfl, ?_, ?_, ?_⟩
  · intro hs he
    rw [pop_batch2_of_shutdown q mc w1 w2 hs, if_pos he]
  · intro hs he
    rw [pop_batch2_of_shutdown q mc w1 w2 hs, if_neg he]
  · intro hs he hmc
    rw [pop_batch2_of_shutdown q mc w1 w2 hs, if_neg he]
    have h0 : 0 < q.queue.length := List.length_pos.mpr he
    have hlen : (q.queue.take mc).length = min mc q.queue.length :=
      List.length_take mc q.queue
    have hne2 : q.queue.take mc ≠ [] := by
      intro hx
      rw [hx] at hlen
      simp only [List.length_nil] at hlen
      omega
    simp [hne2]

/-- Claim C7 witness: a concrete shut-down queue holding one item is
drained by the first pop_batch call and the next call returns empty. -/
theorem c7_witness :
    ((⟨[it1], true, 1, 0⟩ : DPQueue).shutdown = true ∧
      (⟨[it1], true, 1, 0⟩ : DPQueue).queue ≠ []) ∧
    pop_batch2 ⟨[it1], true, 1, 0⟩ 8 [] []
      = (⟨[], true, 1, 1⟩, [it1], true, []) ∧
    pop_batch2 ⟨[], true, 1, 1⟩ 8 [] []
      = (⟨[], true, 1, 1⟩, [], false, []) := by
  refine ⟨⟨rfl, by decide⟩, ?_, ?_⟩
  · have h := (c7_shutdown_drains_then_empty
      ⟨[it1], true, 1, 0⟩ 8 [] []).2.2.2.1 rfl (by decide)
    rw [h]
    rfl
  · exact (c7_shutdown_drains_then_empty ⟨[], true, 1, 1⟩ 8 [] []).2.2.1 rfl rfl

/-- The batching loop never grows the batch beyond maxCount. -/
theorem batchLoop_length_le (mc : Nat) (ws : List WaitEv) (q : DPQueue)
    (dps : List DPITEM) (h : dps.length ≤ mc) :
    (batchLoop mc q dps ws).2.1.length ≤ mc := by
  induction ws generalizing q dps with
  | nil => simpa [batchLoop] using h
  | cons w rest ih =>
    by_cases hc : dps.length < mc ∧ q.shutdown = false
    · rw [batchLoop, if_pos hc]
      by_cases hw : w.2
      · simpa [hw] using h
      · simp only [hw, if_false, Bool.false_eq_true]
        set q1 := applyOps q w.1 with hq1
        rw [popLoop_eq]
        set k := min (mc - dps.length) q1.queue.length with hk
        have hlen2 : (dps ++ q1.queue.take k).length ≤ mc := by
          simp only [List.length_append, List.length_take]
          omega
        by_cases hfull : mc ≤ (dps ++ q1.queue.take k).length
        · simp only [if_pos hfull]
          exact hlen2
        · simp only [if_neg hfull]
          exact ih _ _ hlen2
    · have heq : batchLoop mc q dps (w :: rest) = (q, dps, []) := by
        rw [batchLoop, if_neg hc]
      rw [heq]
      exact h

/-- Neither pop_batch version returns more than maxCount items. -/
theorem pop_batch2_length_le (q : DPQueue) (mc : Nat) (w1 w2 : List WaitEv) :
    (pop_batch2 q mc w1 w2).2.1.length ≤ mc := by
  rw [pop_batch2]
  by_cases ht : (firstWaitLoop q w1).2.1
  · simp [ht]
  · simp only [ht, if_false, Bool.false_eq_true]
    by_cases hs : (firstWaitLoop q w1).1.shutdown = true ∧ (firstWaitLoop q w1).1.queue = []
    · simp [hs]
    · simp only [if_neg hs]
      rw [popLoop_nil_eq]
      dsimp only
      apply batchLoop_length_le
      simp only [List.length_take]
      omega

/-- Evaluation of the batching loop on a drained queue when the single
remaining wait times out: the collected batch is returned as is. -/
theorem batchLoop_drained_timeout (mc : Nat) (q : DPQueue) (dps : List DPITEM)
    (rest : List WaitEv) (hc : dps.length < mc) (hs : q.shutdown = false) :
    batchLoop mc q dps (([], true) :: rest) = (q, dps, []) := by
  rw [batchLoop, if_pos ⟨hc, hs⟩]
  rfl

/-- Evaluation of one batching wait that delivers a batch push: the new
items are drained from the queue and the loop continues on the remaining
waits (here: when the arrivals still leave the batch short of maxCount and
the queue was empty when the wait began). -/
theorem batchLoop_arrivals_continue (mc : Nat) (q : DPQueue) (dps : List DPITEM)
    (B : List ITEM) (t g : Nat) (rest : List WaitEv)
    (hq : q.queue = []) (hc : dps.length < mc) (hs : q.shutdown = false)
    (hB : B ≠ []) (hlen : dps.length + B.length < mc) :
    batchLoop mc q dps (([QOp.pushBatch B t g], false) :: rest)
      = ((batchLoop mc
            ⟨[], q.shutdown, q.totalPushed + B.length, q.totalPopped + B.length⟩
            (dps ++ B.map (fun dp => ⟨dp, t, g⟩)) rest).1,
         (batchLoop mc
            ⟨[], q.shutdown, q.totalPushed + B.length, q.totalPopped + B.length⟩
            (dps ++ B.map (fun dp => ⟨dp, t, g⟩)) rest).2.1,
         B.map (fun dp => ⟨dp, t, g⟩)
           ++ (batchLoop mc
                ⟨[], q.shutdown, q.totalPushed + B.length, q.totalPopped + B.length⟩
                (dps ++ B.map (fun dp => ⟨dp, t, g⟩)) rest).2.2) := by
  have hB0 : B.isEmpty = false := by simp [hB]
  rw [batchLoop, if_pos ⟨hc, hs⟩]
  simp only [reduceIte]
  simp only [applyOps, List.foldl_cons, List.foldl_nil, applyOp,
    DPQueue.push_batch, hB0, Bool.false_eq_true, if_false, hq, List.nil_append]
  rw [popLoop_eq]
  have hmlen : (B.map (fun dp => (⟨dp, t, g⟩ : DPITEM))).length = B.length :=
    List.length_map B _
  have hk : min (mc - dps.length) (B.map (fun dp => (⟨dp, t, g⟩ : DPITEM))).length
      = (B.map (fun dp => (⟨dp, t, g⟩ : DPITEM))).length := by
    rw [hmlen]
    omega
  rw [hk, List.take_length, List.drop_length]
  have hfull : ¬(mc ≤ (dps ++ B.map (fun dp => (⟨dp, t, g⟩ : DPITEM))).length) := by
    rw [List.length_append, hmlen]
    omega
  rw [if_neg hfull]
  rw [hmlen]
  simp [pushedOfOps, pushedOfOp]

/-- Claim C3: pop_batch (second version) waits up to the timeout for the
first item and returns false with an empty batch when that wait times out;
then it drains up to maxCount items; if the batch is not yet full it
performs an additional wait of batching_delay_ms = 50 ms, returning the
collected batch when the delay elapses without new arrivals, and otherwise
draining the arrivals and repeating until the batch is full or a delay
elapses, finally returning the collected batch. -/
theorem c3_pop_batch_batching :
    batching_delay_ms = 50 ∧
    (∀ (q : DPQueue) (mc : Nat) (w2 : List WaitEv), q.queue = [] → q.shutdown = false →
      pop_batch2 q mc [([], true)] w2 = (q, [], false, [])) ∧
    (∀ (q : DPQueue) (mc : Nat) (w1 w2 : List WaitEv),
      (pop_batch2 q mc w1 w2).2.1.length ≤ mc) ∧
    (∀ (q : DPQueue) (mc : Nat) (w1 : List WaitEv),
      q.shutdown = false → q.queue ≠ [] → q.queue.length < mc →
      pop_batch2 q mc w1 [([], true)]
        = (⟨[], q.shutdown, q.totalPushed, q.totalPopped + q.queue.length⟩,
           q.queue, true, [])) ∧
    (∀ (q : DPQueue) (mc : Nat) (w1 : List WaitEv) (B : List ITEM) (t g : Nat),
      q.shutdown = false → q.queue ≠ [] → B ≠ [] →
      q.queue.length + B.length < mc →
      pop_batch2 q mc w1 [([QOp.pushBatch B t g], false), ([], true)]
        = (⟨[], q.shutdown, q.totalPushed + B.length,
             q.totalPopped + q.queue.length + B.length⟩,
           q.queue ++ B.map (fun dp => ⟨dp, t, g⟩), true,
           B.map (fun dp => ⟨dp, t, g⟩))) := by
  refine ⟨rfl, ?_, ?_, ?_, ?_⟩
  · intro q mc w2 he hs
    have hfw : firstWaitLoop q [([], true)] = (q, true, []) := by
      rw [firstWaitLoop, if_pos ⟨he, hs⟩]
      rfl
    rw [pop_batch2, hfw]
    rfl
  · exact pop_batch2_length_le
  · intro q mc w1 hs hne hlt
    rw [pop_batch2_of_ready q mc w1 [([], true)] hs hne]
    rw [List.drop_of_length_le (le_of_lt hlt), List.take_of_length_le (le_of_lt hlt),
      min_eq_right (le_of_lt hlt)]
    have hbl := batchLoop_drained_timeout mc
      (⟨[], q.shutdown, q.totalPushed, q.totalPopped + q.queue.length⟩ : DPQueue)
      q.queue [] hlt hs
    rw [hbl]
    simp [hne]
  · intro q mc w1 B t g hs hne hB hlen2
    have hlt : q.queue.length < mc := by omega
    rw [pop_batch2_of_ready q mc w1 _ hs hne]
    rw [List.drop_of_length_le (le_of_lt hlt), List.take_of_length_le (le_of_lt hlt),
      min_eq_right (le_of_lt hlt)]
    have hbl := batchLoop_arrivals_continue mc
      (⟨[], q.shutdown, q.totalPushed, q.totalPopped + q.queue.length⟩ : DPQueue)
      q.queue B t g [([], true)] rfl hlt hs hB (by omega)
    rw [hbl]
    dsimp only
    have hlen3 : (q.queue ++ B.map (fun dp => (⟨dp, t, g⟩ : DPITEM))).length < mc := by
      rw [List.length_append, List.length_map]
      omega
    have hbl2 := batchLoop_drained_timeout mc
      (⟨[], q.shutdown, q.totalPushed + B.length,
         q.totalPopped + q.queue.length + B.length⟩ : DPQueue)
      (q.queue ++ B.map (fun dp => ⟨dp, t, g⟩)) [] hlen3 hs
    rw [hbl2]
    have hne2 : q.queue ++ B.map (fun dp => (⟨dp, t, g⟩ : DPITEM)) ≠ [] := by
      simp [hne]
    simp [hne2]

/-- Claim C3 witness: concrete pop_batch2 calls exercising the timeout
path, the drain-then-batching-timeout path, and the arrivals-then-repeat
path. -/
theorem c3_witness :
    pop_batch2 ⟨[], false, 0, 0⟩ 4 [([], true)] [] = (⟨[], false, 0, 0⟩, [], false, []) ∧
    pop_batch2 ⟨[it1], false, 1, 0⟩ 4 [] [([], true)]
      = (⟨[], false, 1, 1⟩, [it1], true, []) ∧
    pop_batch2 ⟨[it1], false, 1, 0⟩ 4 []
        [([QOp.pushBatch [⟨7, 8, 9, 10⟩] 5 6], false), ([], true)]
      = (⟨[], false, 2, 2⟩, [it1, it2], true, [it2]) := by
  refine ⟨c3_pop_batch_batching.2.1 ⟨[], false, 0, 0⟩ 4 [] rfl rfl, ?_, ?_⟩
  · have h := c3_pop_batch_batching.2.2.2.1 ⟨[it1], false, 1, 0⟩ 4 [] rfl
      (by decide) (by decide)
    rw [h]
    rfl
  · have h := c3_pop_batch_batching.2.2.2.2 ⟨[it1], false, 1, 0⟩ 4 []
      [⟨7, 8, 9, 10⟩] 5 6 rfl (by decide) (by decide) (by decide)
    rw [h]
    rfl

/-- Frame property of the store insert: an Add at one x-coordinate never
changes the entry stored at another coordinate nor the events recorded for
it. -/
theorem Add_frame (s : DPStore) (dp : Entry) (x : Nat) (hne : dp.x ≠ x) :
    findX (DPStore.Add s dp).1.entries x = findX s.entries x ∧
    eventsAtX (DPStore.Add s dp).1 x = eventsAtX s x := by
  cases hfind : findX s.entries dp.x with
  | none =>
    rw [DPStore.Add, hfind]
    exact ⟨findX_insertByX_of_ne dp s.entries x hne, rfl⟩
  | some stored =>
    have hsx : stored.x = dp.x := findX_some hfind
    rw [DPStore.Add, hfind]
    dsimp only
    by_cases hherd : herdOfKIdx stored.kIdx = herdOfKIdx dp.kIdx
    · rw [if_pos hherd]
      by_cases hdist : stored.dist = dp.dist
      · rw [if_pos hdist]
        exact ⟨rfl, rfl⟩
      · rw [if_neg hdist]
        refine ⟨?_, rfl⟩
        dsimp only
        apply findX_replaceAtX_of_ne dp.x _ s.entries x hne
        by_cases hlt : dp.dist < stored.dist
        · rw [if_pos hlt]
        · rw [if_neg hlt]
          exact hsx
    · rw [if_neg hherd]
      refine ⟨rfl, ?_⟩
      rw [eventsAtX]
      dsimp only
      rw [List.filter_append, eventsAtX]
      have htx : (mkCrossEvent stored dp).tame.x = dp.x := by
        rw [mkCrossEvent]
        by_cases hst : herdOfKIdx stored.kIdx = Herd.TAME
        · rw [if_pos hst]
          exact hsx
        · rw [if_neg hst]
      have : ((mkCrossEvent stored dp).tame.x == x) = false := by
        simp [htx, hne]
      simp [this]

/-- Effect of an Add at x on a store with no entry at x: the entry is
inserted and no event is emitted. -/
theorem Add_insert (s : DPStore) (dp : Entry)
    (hfind : findX s.entries dp.x = none) :
    findX (DPStore.Add s dp).1.entries dp.x = some dp ∧
    (DPStore.Add s dp).1.events = s.events ∧
    (DPStore.Add s dp).2 = AddResult.ADD_OK := by
  rw [DPStore.Add, hfind]
  exact ⟨findX_insertByX_self dp s.entries hfind, rfl, rfl⟩

/-- Effect of a cross-herd Add at x: the entries are unchanged and exactly
one event pairing the stored and the new entry is appended. -/
theorem Add_cross (s : DPStore) (dp stored : Entry)
    (hfind : findX s.entries dp.x = some stored)
    (hherd : herdOfKIdx stored.kIdx ≠ herdOfKIdx dp.kIdx) :
    (DPStore.Add s dp).1.entries = s.entries ∧
    (DPStore.Add s dp).1.events = s.events ++ [mkCrossEvent stored dp] ∧
    (DPStore.Add s dp).2 = AddResult.CROSS_HERD_COLLISION := by
  rw [DPStore.Add, hfind]
  dsimp only
  rw [if_neg hherd]
  exact ⟨rfl, rfl, rfl⟩

/-- Events recorded for x after a cross-herd Add at x: the new event is
kept by the filter at x. -/
theorem Add_cross_eventsAtX (s : DPStore) (dp stored : Entry)
    (hfind : findX s.entries dp.x = some stored)
    (hherd : herdOfKIdx stored.kIdx ≠ herdOfKIdx dp.kIdx) :
    eventsAtX (DPStore.Add s dp).1 dp.x
      = eventsAtX s dp.x ++ [mkCrossEvent stored dp] := by
  obtain ⟨-, hev, -⟩ := Add_cross s dp stored hfind hherd
  rw [eventsAtX, hev, List.filter_append, eventsAtX]
  have hsx : stored.x = dp.x := findX_some hfind
  have htx : (mkCrossEvent stored dp).tame.x = dp.x := by
    rw [mkCrossEvent]
    by_cases hst : herdOfKIdx stored.kIdx = Herd.TAME
    · rw [if_pos hst]
      exact hsx
    · rw [if_neg hst]
  simp [htx]

/-- Processing a list of DPs none of which lies at x leaves the entry and
the events at x unchanged. -/
theorem runAdds_frame (x : Nat) (dps : List Entry) :
    ∀ s : DPStore, dps.filter (fun d => d.x == x) = [] →
      findX (runAdds s dps).entries x = findX s.entries x ∧
      eventsAtX (runAdds s dps) x = eventsAtX s x := by
  induction dps with
  | nil => exact fun s _ => ⟨rfl, rfl⟩
  | cons d rest ih =>
    intro s h
    rw [List.filter_cons] at h
    by_cases hdx : (d.x == x) = true
    · rw [if_pos hdx] at h
      exact absurd h (by simp)
    · rw [if_neg hdx] at h
      have hne : d.x ≠ x := by simpa using hdx
      obtain ⟨h1, h2⟩ := Add_frame s d x hne
      obtain ⟨h3, h4⟩ := ih (DPStore.Add s d).1 h
      rw [runAdds, List.foldl_cons]
      rw [runAdds] at h3 h4
      exact ⟨h3.trans h1, h4.trans h2⟩

/-- Processing a list of DPs with exactly one DP at x, arriving at a store
that already holds a cross-herd entry at x, emits exactly the one
cross-herd event for x. -/
theorem runAdds_one_at_x (x : Nat) (d2 e : Entry)
    (hherd : herdOfKIdx e.kIdx ≠ herdOfKIdx d2.kIdx) (dps : List Entry) :
    ∀ s : DPStore, dps.filter (fun d => d.x == x) = [d2] →
      findX s.entries x = some e →
      eventsAtX (runAdds s dps) x = eventsAtX s x ++ [mkCrossEvent e d2] := by
  induction dps with
  | nil =>
    intro s hfil hfind
    simp at hfil
  | cons d rest ih =>
    intro s hfil hfind
    rw [List.filter_cons] at hfil
    by_cases hdx : (d.x == x) = true
    · rw [if_pos hdx] at hfil
      have hd : d = d2 := List.head_eq_of_cons_eq hfil
      have hrest : rest.filter (fun d => d.x == x) = [] :=
        List.tail_eq_of_cons_eq hfil
      have hdx2 : d.x = x := by simpa using hdx
      have hfind2 : findX s.entries d.x = some e := by
        rw [hdx2]
        exact hfind
      have hherd2 : herdOfKIdx e.kIdx ≠ herdOfKIdx d.kIdx := by
        rw [hd]
        exact hherd
      have hev := Add_cross_eventsAtX s d e hfind2 hherd2
      obtain ⟨-, hfr2⟩ := runAdds_frame x rest (DPStore.Add s d).1 hrest
      rw [runAdds, List.foldl_cons]
      rw [runAdds] at hfr2
      rw [hfr2]
      rw [hdx2] at hev
      rw [hev, hd]
    · rw [if_neg hdx] at hfil
      have hne : d.x ≠ x := by simpa using hdx
      obtain ⟨h1, h2⟩ := Add_frame s d x hne
      have hfind' : findX (DPStore.Add s d).1.entries x = some e := h1.trans hfind
      have hih := ih (DPStore.Add s d).1 hfil hfind'
      rw [runAdds, List.foldl_cons]
      rw [runAdds] at hih
      rw [hih, h2]

/-- Processing a list of DPs with exactly two DPs at x of differing herds,
starting from a store with no entry at x, emits exactly one cross-herd
event for x, pairing the first and the second DP at x. -/
theorem runAdds_two_at_x (x : Nat) (d1 d2 : Entry)
    (hherd : herdOfKIdx d1.kIdx ≠ herdOfKIdx d2.kIdx) (dps : List Entry) :
    ∀ s : DPStore, dps.filter (fun d => d.x == x) = [d1, d2] →
      findX s.entries x = none →
      eventsAtX (runAdds s dps) x = eventsAtX s x ++ [mkCrossEvent d1 d2] := by
  induction dps with
  | nil =>
    intro s hfil hfind
    simp at hfil
  | cons d rest ih =>
    intro s hfil hfind
    rw [List.filter_cons] at hfil
    by_cases hdx : (d.x == x) = true
    · rw [if_pos hdx] at hfil
      have hd : d = d1 := List.head_eq_of_cons_eq hfil
      have hrest : rest.filter (fun d => d.x == x) = [d2] :=
        List.tail_eq_of_cons_eq hfil
      have hdx2 : d.x = x := by simpa using hdx
      have hfind2 : findX s.entries d.x = none := by
        rw [hdx2]
        exact hfind
      obtain ⟨hins, hev, -⟩ := Add_insert s d hfind2
      rw [hdx2] at hins
      have hherd2 : herdOfKIdx d.kIdx ≠ herdOfKIdx d2.kIdx := by
        rw [hd]
        exact hherd
      have hone := runAdds_one_at_x x d2 d hherd2 rest (DPStore.Add s d).1 hrest hins
      rw [runAdds, List.foldl_cons]
      rw [runAdds] at hone
      rw [hone]
      have hev2 : eventsAtX (DPStore.Add s d).1 x = eventsAtX s x := by
        rw [eventsAtX, hev, eventsAtX]
      rw [hev2, hd]
    · rw [if_neg hdx] at hfil
      have hne : d.x ≠ x := by simpa using hdx
      obtain ⟨h1, h2⟩ := Add_frame s d x hne
      have hfind' : findX (DPStore.Add s d).1.entries x = none := h1.trans hfind
      have hih := ih (DPStore.Add s d).1 hfil hfind'
      rw [runAdds, List.foldl_cons]
      rw [runAdds] at hih
      rw [hih, h2]

/-- An Add only ever appends to the event log, never removes or edits. -/
theorem Add_events_extends (s : DPStore) (d : Entry) :
    ∃ tail, (DPStore.Add s d).1.events = s.events ++ tail := by
  cases hfind : findX s.entries d.x with
  | none =>
    rw [DPStore.Add, hfind]
    exact ⟨[], by simp⟩
  | some stored =>
    rw [DPStore.Add, hfind]
    dsimp only
    by_cases hherd : herdOfKIdx stored.kIdx = herdOfKIdx d.kIdx
    · rw [if_pos hherd]
      by_cases hdist : stored.dist = d.dist
      · rw [if_pos hdist]
        exact ⟨[], by simp⟩
      · rw [if_neg hdist]
        exact ⟨[], by simp⟩
    · rw [if_neg hherd]
      exact ⟨[mkCrossEvent stored d], rfl⟩

/-- The events recorded for a coordinate only accumulate while a list of
DPs is processed. -/
theorem runAdds_eventsAtX_mono (x : Nat) (dps : List Entry) :
    ∀ s : DPStore,
      (eventsAtX s x).length ≤ (eventsAtX (runAdds s dps) x).length := by
  induction dps with
  | nil => exact fun s => le_refl _
  | cons d rest ih =>
    intro s
    obtain ⟨tail, htail⟩ := Add_events_extends s d
    have hstep : (eventsAtX s x).length ≤ (eventsAtX (DPStore.Add s d).1 x).length := by
      rw [eventsAtX, eventsAtX, htail, List.filter_append, List.length_append]
      omega
    have hrest := ih (DPStore.Add s d).1
    rw [runAdds, List.foldl_cons]
    rw [runAdds] at hrest
    omega

/-- A same-herd Add at x keeps an entry at x whose herd is unchanged, and
emits no event at x. -/
theorem Add_same_herd_step (s : DPStore) (d e : Entry) (x : Nat)
    (hdx : d.x = x) (hfind : findX s.entries x = some e)
    (hherd : herdOfKIdx d.kIdx = herdOfKIdx e.kIdx) :
    ∃ e', findX (DPStore.Add s d).1.entries x = some e' ∧
      herdOfKIdx e'.kIdx = herdOfKIdx e.kIdx ∧
      eventsAtX (DPStore.Add s d).1 x = eventsAtX s x := by
  have hfind2 : findX s.entries d.x = some e := by
    rw [hdx]
    exact hfind
  rw [DPStore.Add, hfind2]
  dsimp only
  rw [if_pos hherd.symm]
  by_cases hdist : e.dist = d.dist
  · rw [if_pos hdist]
    exact ⟨e, hfind, rfl, rfl⟩
  · rw [if_neg hdist]
    refine ⟨if d.dist < e.dist then d else e, ?_, ?_, rfl⟩
    · dsimp only
      rw [hdx]
      apply findX_replaceAtX_self x _ s.entries e hfind
      by_cases hlt : d.dist < e.dist
      · rw [if_pos hlt]
        exact hdx
      · rw [if_neg hlt]
        exact findX_some hfind
    · by_cases hlt : d.dist < e.dist
      · rw [if_pos hlt]
        exact hherd
      · rw [if_neg hlt]

/-- Once an entry is stored at x, any later Add at x of the opposite herd
forces at least one cross-herd event at x. -/
theorem runAdds_mismatch_fires (x : Nat) (dps : List Entry) :
    ∀ (s : DPStore) (e : Entry), findX s.entries x = some e →
      (∃ d, d ∈ dps ∧ d.x = x ∧ herdOfKIdx d.kIdx ≠ herdOfKIdx e.kIdx) →
      0 < (eventsAtX (runAdds s dps) x).length := by
  induction dps with
  | nil =>
    rintro s e hfind ⟨d, hd, -, -⟩
    simp at hd
  | cons d0 rest ih =>
    rintro s e hfind ⟨w, hw, hwx, hwherd⟩
    rw [runAdds, List.foldl_cons]
    by_cases hd0x : d0.x = x
    · by_cases hsame : herdOfKIdx d0.kIdx = herdOfKIdx e.kIdx
      · obtain ⟨e', h1, h2, -⟩ := Add_same_herd_step s d0 e x hd0x hfind hsame
        have hwrest : w ∈ rest := by
          rcases List.mem_cons.mp hw with hwd | h
          · subst hwd
            exact absurd hsame hwherd
          · exact h
        have hrec := ih (DPStore.Add s d0).1 e' h1
          ⟨w, hwrest, hwx, by rw [h2]; exact hwherd⟩
        rw [runAdds] at hrec
        exact hrec
      · have hfind2 : findX s.entries d0.x = some e := by
          rw [hd0x]
          exact hfind
        have hherd2 : herdOfKIdx e.kIdx ≠ herdOfKIdx d0.kIdx := fun h => hsame h.symm
        have hev := Add_cross_eventsAtX s d0 e hfind2 hherd2
        rw [hd0x] at hev
        have hmono := runAdds_eventsAtX_mono x rest (DPStore.Add s d0).1
        rw [runAdds] at hmono
        rw [hev, List.length_append, List.length_singleton] at hmono
        omega
    · have hwrest : w ∈ rest := by
        rcases List.mem_cons.mp hw with hwd | h
        · subst hwd
          exact absurd hwx hd0x
        · exact h
      obtain ⟨hf1, -⟩ := Add_frame s d0 x hd0x
      have hrec := ih (DPStore.Add s d0).1 e (hf1.trans hfind) ⟨w, hwrest, hwx, hwherd⟩
      rw [runAdds] at hrec
      exact hrec

/-- From a store with no entry at x, any list of DPs containing two DPs at
x of differing herds produces at least one cross-herd event at x. -/
theorem runAdds_pair_fires (x : Nat) (dps : List Entry) :
    ∀ s : DPStore, findX s.entries x = none →
      (∃ d1, d1 ∈ dps ∧ d1.x = x ∧ ∃ d2, d2 ∈ dps ∧ d2.x = x ∧
        herdOfKIdx d1.kIdx ≠ herdOfKIdx d2.kIdx) →
      0 < (eventsAtX (runAdds s dps) x).length := by
  induction dps with
  | nil =>
    rintro s hfind ⟨d1, hd1, -⟩
    simp at hd1
  | cons d0 rest ih =>
    rintro s hfind ⟨d1, hd1, hd1x, d2, hd2, hd2x, hherd⟩
    rw [runAdds, List.foldl_cons]
    by_cases hd0x : d0.x = x
    · have hfind2 : findX s.entries d0.x = none := by
        rw [hd0x]
        exact hfind
      obtain ⟨hins, -, -⟩ := Add_insert s d0 hfind2
      rw [hd0x] at hins
      have hwit : ∃ w, w ∈ d0 :: rest ∧ w.x = x ∧
          herdOfKIdx w.kIdx ≠ herdOfKIdx d0.kIdx := by
        by_cases h1 : herdOfKIdx d1.kIdx = herdOfKIdx d0.kIdx
        · exact ⟨d2, hd2, hd2x, fun h => hherd (h1.trans h.symm)⟩
        · exact ⟨d1, hd1, hd1x, h1⟩
      obtain ⟨w, hw, hwx, hwherd⟩ := hwit
      have hwrest : w ∈ rest := by
        rcases List.mem_cons.mp hw with hwd | h
        · subst hwd
          exact absurd rfl hwherd
        · exact h
      have hrec := runAdds_mismatch_fires x rest (DPStore.Add s d0).1 d0 hins
        ⟨w, hwrest, hwx, hwherd⟩
      rw [runAdds] at hrec
      exact hrec
    · have h1r : d1 ∈ rest := by
        rcases List.mem_cons.mp hd1 with h | h
        · subst h
          exact absurd hd1x hd0x
        · exact h
      have h2r : d2 ∈ rest := by
        rcases List.mem_cons.mp hd2 with h | h
        · subst h
          exact absurd hd2x hd0x
        · exact h
      obtain ⟨hf1, -⟩ := Add_frame s d0 x hd0x
      have hrec := ih (DPStore.Add s d0).1 (hf1.trans hfind)
        ⟨d1, h1r, hd1x, d2, h2r, hd2x, hherd⟩
      rw [runAdds] at hrec
      exact hrec

/-- Claim C1 counterexample: the sequence tame, wild, wild at x = 9
contains two entries with equal x and differing herd, yet the store emits
two CROSS_HERD_COLLISION events for x = 9, not exactly one: the stored tame
entry survives the first collision, and each further wild Add at that x
re-emits an event. -/
theorem c1_counterexample :
    (⟨9, 2, 0⟩ : Entry) ∈ ([⟨9, 2, 0⟩, ⟨9, 3, 1⟩, ⟨9, 4, 3⟩] : List Entry) ∧
    (⟨9, 3, 1⟩ : Entry) ∈ ([⟨9, 2, 0⟩, ⟨9, 3, 1⟩, ⟨9, 4, 3⟩] : List Entry) ∧
    herdOfKIdx (⟨9, 2, 0⟩ : Entry).kIdx ≠ herdOfKIdx (⟨9, 3, 1⟩ : Entry).kIdx ∧
    (eventsAtX (runAdds DPStore.init [⟨9, 2, 0⟩, ⟨9, 3, 1⟩, ⟨9, 4, 3⟩]) 9).length
      = 2 := by
  decide

/-- Claim C1 as amended: for every sequence of Adds containing two entries
with equal x-coordinate and differing herd, at least one
CROSS_HERD_COLLISION event is emitted for that x; and when the sequence
contains exactly two entries at that x, exactly one event is emitted for
that x, pairing the tame and the wild entry by kIdx parity regardless of
which of the stored or the new entry is the tame one. -/
theorem c1_cross_herd_detectable (dps : List Entry) (x : Nat) (d1 d2 : Entry) :
    (d1 ∈ dps → d2 ∈ dps → d1.x = x → d2.x = x →
      herdOfKIdx d1.kIdx ≠ herdOfKIdx d2.kIdx →
      0 < (eventsAtX (runAdds DPStore.init dps) x).length) ∧
    (dps.filter (fun d => d.x == x) = [d1, d2] →
      herdOfKIdx d1.kIdx ≠ herdOfKIdx d2.kIdx →
      eventsAtX (runAdds DPStore.init dps) x = [mkCrossEvent d1 d2] ∧
      herdOfKIdx (mkCrossEvent d1 d2).tame.kIdx = Herd.TAME ∧
      herdOfKIdx (mkCrossEvent d1 d2).wild.kIdx = Herd.WILD) := by
  constructor
  · intro h1 h2 h3 h4 h5
    exact runAdds_pair_fires x dps DPStore.init rfl ⟨d1, h1, h3, d2, h2, h4, h5⟩
  · intro hfil hherd
    have h := runAdds_two_at_x x d1 d2 hherd dps DPStore.init hfil rfl
    refine ⟨by simpa using h, ?_, ?_⟩
    · rw [mkCrossEvent]
      by_cases h1 : herdOfKIdx d1.kIdx = Herd.TAME
      · rw [if_pos h1]
        exact h1
      · rw [if_neg h1]
        cases hd1 : herdOfKIdx d1.kIdx with
        | TAME => exact absurd hd1 h1
        | WILD =>
          cases hd2 : herdOfKIdx d2.kIdx with
          | TAME => rfl
          | WILD =>
            rw [hd1, hd2] at hherd
            exact absurd rfl hherd
    · by_cases h1 : herdOfKIdx d1.kIdx = Herd.TAME
      · rw [mkCrossEvent, if_pos h1]
        cases hd2 : herdOfKIdx d2.kIdx with
        | TAME =>
          rw [h1, hd2] at hherd
          exact absurd rfl hherd
        | WILD => rfl
      · rw [mkCrossEvent, if_neg h1]
        cases hd1 : herdOfKIdx d1.kIdx with
        | TAME => exact absurd hd1 h1
        | WILD => rfl

/-- Claim C1 witness: the amended claim at concrete inputs: a tame and two
wild DPs at x = 9 fire at least one event, and a sequence with exactly one
tame and one wild at x = 9 among unrelated DPs yields exactly one
cross-herd event at 9. -/
theorem c1_amended_witness :
    0 < (eventsAtX (runAdds DPStore.init [⟨9, 2, 0⟩, ⟨9, 3, 1⟩, ⟨9, 4, 3⟩]) 9).length ∧
    (([⟨1, 50, 4⟩, ⟨9, 2, 0⟩, ⟨9, 3, 1⟩, ⟨4, 7, 3⟩] : List Entry).filter
        (fun d => d.x == 9) = [⟨9, 2, 0⟩, ⟨9, 3, 1⟩] ∧
      eventsAtX (runAdds DPStore.init [⟨1, 50, 4⟩, ⟨9, 2, 0⟩, ⟨9, 3, 1⟩, ⟨4, 7, 3⟩]) 9
        = [mkCrossEvent ⟨9, 2, 0⟩ ⟨9, 3, 1⟩]) := by
  constructor
  · exact (c1_cross_herd_detectable [⟨9, 2, 0⟩, ⟨9, 3, 1⟩, ⟨9, 4, 3⟩] 9
      ⟨9, 2, 0⟩ ⟨9, 3, 1⟩).1 (by decide) (by decide) (by decide) (by decide)
      (by decide)
  · refine ⟨by decide, ?_⟩
    exact ((c1_cross_herd_detectable [⟨1, 50, 4⟩, ⟨9, 2, 0⟩, ⟨9, 3, 1⟩, ⟨4, 7, 3⟩] 9
      ⟨9, 2, 0⟩ ⟨9, 3, 1⟩).2 (by decide) (by decide)).1

/-- Claim C5 counterexample: from a store already holding an entry at x = 0
with the same herd but a shorter distance, Add of the same DP twice bumps
the same-herd counter twice, so the state after two Adds differs from the
state after one; insertion idempotence fails for such starting states. -/
theorem c5_counterexample :
    (DPStore.Add (DPStore.Add ⟨[⟨0, 5, 0⟩], 0, []⟩ ⟨0, 10, 2⟩).1 ⟨0, 10, 2⟩).1
      ≠ (DPStore.Add ⟨[⟨0, 5, 0⟩], 0, []⟩ ⟨0, 10, 2⟩).1 ∧
    (DPStore.Add (DPStore.Add ⟨[⟨0, 5, 0⟩], 0, []⟩ ⟨0, 10, 2⟩).1
        ⟨0, 10, 2⟩).1.sameHerdCount = 2 ∧
    (DPStore.Add ⟨[⟨0, 5, 0⟩], 0, []⟩ ⟨0, 10, 2⟩).1.sameHerdCount = 1 := by
  decide

/-- Claim C5 as amended: Add(dp) twice leaves the store state identical to
Add(dp) once whenever the store has no entry at dp.x, or the entry stored
at dp.x has the same herd and the same distance as dp; in particular the
second Add of the pair is always ignored as a true duplicate (an x-match
with equal herd and equal distance). -/
theorem c5_idempotent_when_fresh_or_true_duplicate (s : DPStore) (dp : Entry)
    (h : findX s.entries dp.x = none ∨
      (∃ stored, findX s.entries dp.x = some stored ∧
        herdOfKIdx stored.kIdx = herdOfKIdx dp.kIdx ∧ stored.dist = dp.dist)) :
    (DPStore.Add (DPStore.Add s dp).1 dp).1 = (DPStore.Add s dp).1 ∧
    (DPStore.Add (DPStore.Add s dp).1 dp).2 = AddResult.SAME_HERD_DUPLICATE := by
  rcases h with hnone | ⟨stored, hfind, hherd, hdist⟩
  · have h1 : DPStore.Add s dp
        = ({ s with entries := insertByX dp s.entries }, AddResult.ADD_OK) := by
      rw [DPStore.Add, hnone]
    have h2 : findX (insertByX dp s.entries) dp.x = some dp :=
      findX_insertByX_self dp s.entries hnone
    rw [h1]
    dsimp only
    rw [DPStore.Add]
    dsimp only
    rw [h2]
    dsimp only
    rw [if_pos rfl, if_pos rfl]
    exact ⟨rfl, rfl⟩
  · have h1 : DPStore.Add s dp = (s, AddResult.SAME_HERD_DUPLICATE) := by
      rw [DPStore.Add, hfind]
      dsimp only
      rw [if_pos hherd, if_pos hdist]
    rw [h1]
    dsimp only
    rw [h1]
    exact ⟨rfl, rfl⟩

/-- Claim C5 witness: adding a fresh DP twice to the empty store leaves the
single-Add state unchanged and reports the second Add as a duplicate. -/
theorem c5_witness :
    findX DPStore.init.entries (⟨3, 4, 2⟩ : Entry).x = none ∧
    (DPStore.Add (DPStore.Add DPStore.init ⟨3, 4, 2⟩).1 ⟨3, 4, 2⟩).1
      = (DPStore.Add DPStore.init ⟨3, 4, 2⟩).1 := by
  exact ⟨rfl, (c5_idempotent_when_fresh_or_true_duplicate DPStore.init ⟨3, 4, 2⟩
    (Or.inl rfl)).1⟩

/-- Claim C6: an Add whose x matches a stored entry of the same herd with a
different distance yields SAME_HERD_DUPLICATE, increments the same-herd
counter, emits no collision event, and overwrites the entry with the one of
shorter distance. -/
theorem c6_same_herd_keeps_shorter (s : DPStore) (dp stored : Entry)
    (hfind : findX s.entries dp.x = some stored)
    (hherd : herdOfKIdx stored.kIdx = herdOfKIdx dp.kIdx)
    (hdist : stored.dist ≠ dp.dist) :
    (DPStore.Add s dp).2 = AddResult.SAME_HERD_DUPLICATE ∧
    (DPStore.Add s dp).1.sameHerdCount = s.sameHerdCount + 1 ∧
    (DPStore.Add s dp).1.events = s.events ∧
    findX (DPStore.Add s dp).1.entries dp.x
      = some (if dp.dist < stored.dist then dp else stored) ∧
    (if dp.dist < stored.dist then dp else stored).dist
      = min stored.dist dp.dist := by
  have hsx : stored.x = dp.x := findX_some hfind
  rw [DPStore.Add, hfind]
  dsimp only
  rw [if_pos hherd, if_neg hdist]
  refine ⟨rfl, rfl, rfl, ?_, ?_⟩
  · dsimp only
    apply findX_replaceAtX_self dp.x _ s.entries stored hfind
    by_cases hlt : dp.dist < stored.dist
    · rw [if_pos hlt]
    · rw [if_neg hlt]
      exact hsx
  · by_cases hlt : dp.dist < stored.dist
    · rw [if_pos hlt]
      omega
    · rw [if_neg hlt]
      omega

/-- Claim C6 witness: the same-herd duplicate scenario of the spec, two
tame entries at the same x with distances 10 and 14: the result is
SAME_HERD_DUPLICATE, the stored distance stays 10, the counter increments
and no event is emitted. -/
theorem c6_witness :
    findX ([⟨55, 10, 2⟩] : List Entry) (⟨55, 14, 4⟩ : Entry).x = some ⟨55, 10, 2⟩ ∧
    herdOfKIdx (⟨55, 10, 2⟩ : Entry).kIdx = herdOfKIdx (⟨55, 14, 4⟩ : Entry).kIdx ∧
    (⟨55, 10, 2⟩ : Entry).dist ≠ (⟨55, 14, 4⟩ : Entry).dist ∧
    (DPStore.Add ⟨[⟨55, 10, 2⟩], 0, []⟩ ⟨55, 14, 4⟩).2
      = AddResult.SAME_HERD_DUPLICATE ∧
    (DPStore.Add ⟨[⟨55, 10, 2⟩], 0, []⟩ ⟨55, 14, 4⟩).1.sameHerdCount = 1 ∧
    (DPStore.Add ⟨[⟨55, 10, 2⟩], 0, []⟩ ⟨55, 14, 4⟩).1.events = [] ∧
    findX (DPStore.Add ⟨[⟨55, 10, 2⟩], 0, []⟩ ⟨55, 14, 4⟩).1.entries 55
      = some ⟨55, 10, 2⟩ := by
  have h := c6_same_herd_keeps_shorter ⟨[⟨55, 10, 2⟩], 0, []⟩ ⟨55, 14, 4⟩
    ⟨55, 10, 2⟩ (by decide) (by decide) (by decide)
  refine ⟨by decide, by decide, by decide, h.1, h.2.1, h.2.2.1, ?_⟩
  have h4 := h.2.2.2.1
  rw [h4]
  decide

/-! Lemmas about the wire serialization. -/

theorem natToBytesBE_length (w : Nat) : ∀ v : Nat, (natToBytesBE w v).length = w := by
  induction w with
  | zero => intro v; rfl
  | succ w ih =>
    intro v
    rw [natToBytesBE, List.length_append, ih]
    rfl

theorem bytesToNatBE_append_single (l : List Nat) (b : Nat) :
    bytesToNatBE (l ++ [b]) = bytesToNatBE l * 256 + b := by
  rw [bytesToNatBE, bytesToNatBE, List.foldl_append]
  rfl

theorem mod_mul_split (a q r : Nat) (ha : 0 < a) (hr : r < 256) :
    (256 * q + r) % (a * 256) = q % a * 256 + r := by
  have h1 : 256 * q + r = q % a * 256 + r + a * 256 * (q / a) := by
    conv_lhs => rw [← Nat.div_add_mod q a]
    ring
  rw [h1, Nat.add_mul_mod_self_left]
  apply Nat.mod_eq_of_lt
  have h2 : q % a < a := Nat.mod_lt _ ha
  have h3 : (q % a + 1) * 256 ≤ a * 256 :=
    Nat.mul_le_mul_right _ (Nat.succ_le_of_lt h2)
  have h4 : (q % a + 1) * 256 = q % a * 256 + 256 := by ring
  omega

theorem bytesToNatBE_natToBytesBE (w : Nat) : ∀ v : Nat,
    bytesToNatBE (natToBytesBE w v) = v % 256 ^ w := by
  induction w with
  | zero =>
    intro v
    simp [natToBytesBE, bytesToNatBE, Nat.mod_one]
  | succ w ih =>
    intro v
    rw [natToBytesBE, bytesToNatBE_append_single, ih, pow_succ]
    have key := mod_mul_split (256 ^ w) (v / 256) (v % 256)
      (pow_pos (by omega) w) (Nat.mod_lt v (by omega))
    rw [Nat.div_add_mod] at key
    exact key.symm

theorem encodeDP_length (dp : ITEM) : (encodeDP dp).length = 68 := by
  rw [encodeDP]
  simp [natToBytesBE_length]

theorem decodeDP_encodeDP (dp : ITEM) :
    decodeDP (encodeDP dp)
      = (dp.x % 2 ^ 256, dp.d % 2 ^ 192, dp.kIdx % 2 ^ 64) := by
  have l32 : (natToBytesBE 32 dp.x).length = 32 := natToBytesBE_length 32 dp.x
  have l24 : (natToBytesBE 24 dp.d).length = 24 := natToBytesBE_length 24 dp.d
  have l8 : (natToBytesBE 8 dp.kIdx).length = 8 := natToBytesBE_length 8 dp.kIdx
  have h256 : (256 : Nat) ^ 32 = 2 ^ 256 := by norm_num
  have h192 : (256 : Nat) ^ 24 = 2 ^ 192 := by norm_num
  have h64 : (256 : Nat) ^ 8 = 2 ^ 64 := by norm_num
  rw [decodeDP, encodeDP, List.append_assoc, List.append_assoc]
  rw [List.take_left' l32, List.drop_left' l32, List.take_left' l24,
    List.drop_left' l24, List.take_left' l8]
  rw [bytesToNatBE_natToBytesBE, bytesToNatBE_natToBytesBE,
    bytesToNatBE_natToBytesBE, h256, h192, h64]

theorem encodeDPBatch_flatten_length (dps : List ITEM) :
    ((dps.map encodeDP).flatten).length = 68 * dps.length := by
  induction dps with
  | nil => rfl
  | cons d rest ih =>
    rw [List.map_cons, List.flatten_cons, List.length_append, ih,
      encodeDP_length, List.length_cons]
    ring

theorem encodeDPBatch_length (dps : List ITEM) :
    (encodeDPBatch dps).length = 1 + 4 + 4 + 68 * dps.length := by
  rw [encodeDPBatch]
  simp only [List.length_append, List.length_singleton, natToBytesBE_length,
    encodeDPBatch_flatten_length]

/-- Claim C8: every serialized DP entry is exactly 68 bytes (x(32) +
dist(24) + kIdx(8) + padding(4), with ITEM_SIZE = 68 from the source
header); decoding an encoded DP recovers its fields exactly, so re-encoding
yields bit-identical bytes; and a DP_BATCH frame with COUNT entries has
LENGTH field 4 + 68 * COUNT and total size 1 + 4 + 4 + 68 * COUNT bytes. -/
theorem c8_wire_format (dp : ITEM)
    (hx : dp.x < 2 ^ 256) (hd : dp.d < 2 ^ 192) (hk : dp.kIdx < 2 ^ 64) :
    (encodeDP dp).length = ITEM_SIZE ∧
    ITEM_SIZE = 68 ∧
    decodeDP (encodeDP dp) = (dp.x, dp.d, dp.kIdx) ∧
    (∀ dps : List ITEM, (encodeDPBatch dps).length = 1 + 4 + 4 + 68 * dps.length) ∧
    (∀ dps : List ITEM,
      bytesToNatBE (((encodeDPBatch dps).drop 1).take 4)
        = (4 + 68 * dps.length) % 2 ^ 32) := by
  refine ⟨encodeDP_length dp, rfl, ?_, encodeDPBatch_length, ?_⟩
  · rw [decodeDP_encodeDP, Nat.mod_eq_of_lt hx, Nat.mod_eq_of_lt hd,
      Nat.mod_eq_of_lt hk]
  · intro dps
    have h32 : (256 : Nat) ^ 4 = 2 ^ 32 := by norm_num
    have l4 : (natToBytesBE 4 (4 + ITEM_SIZE * dps.length)).length = 4 :=
      natToBytesBE_length 4 _
    rw [encodeDPBatch, List.append_assoc, List.append_assoc,
      List.singleton_append, List.drop_one, List.tail_cons,
      List.take_left' l4, bytesToNatBE_natToBytesBE, h32]
    rfl

/-- Claim C8 witness: a concrete DP round-trips through the wire format and
a two-entry batch frame measures 1 + 4 + 4 + 136 bytes. -/
theorem c8_witness :
    ((3 : Nat) < 2 ^ 256 ∧ (4 : Nat) < 2 ^ 192 ∧ (5 : Nat) < 2 ^ 64) ∧
    (encodeDP ⟨3, 4, 5, 6⟩).length = ITEM_SIZE ∧
    decodeDP (encodeDP ⟨3, 4, 5, 6⟩) = (3, 4, 5) ∧
    (encodeDPBatch [⟨3, 4, 5, 6⟩, ⟨7, 8, 9, 10⟩]).length = 1 + 4 + 4 + 68 * 2 := by
  have h := c8_wire_format ⟨3, 4, 5, 6⟩ (by norm_num) (by norm_num) (by norm_num)
  exact ⟨⟨by norm_num, by norm_num, by norm_num⟩, h.1, h.2.2.1,
    h.2.2.2.1 [⟨3, 4, 5, 6⟩, ⟨7, 8, 9, 10⟩]⟩

/-- Claim C4: the herd of every DP and kangaroo is derived solely from kIdx
parity (kIdx AND 1): even kIdx is TAME and odd kIdx is WILD; the wire
format transmits kIdx (never the herd, and independently of the auxiliary
field h) and decoding recovers kIdx exactly, preserving the parity; and the
CPU-side queue hop returns every pushed ITEM unchanged, preserving the
parity as well. -/
theorem c4_herd_is_kidx_parity :
    (∀ k : Nat, (herdOfKIdx k = Herd.TAME ↔ k % 2 = 0) ∧
      (herdOfKIdx k = Herd.WILD ↔ k % 2 = 1)) ∧
    (∀ dp : ITEM, dp.kIdx < 2 ^ 64 →
      (decodeDP (encodeDP dp)).2.2 = dp.kIdx ∧
      herdOfKIdx (decodeDP (encodeDP dp)).2.2 = herdOfKIdx dp.kIdx) ∧
    (∀ (dp : ITEM) (h2 : Nat), encodeDP ⟨dp.x, dp.d, dp.kIdx, h2⟩ = encodeDP dp) ∧
    (∀ (dp : ITEM) (t g : Nat) (w1 w2 : List WaitEv),
      (pop_batch2 (DPQueue.push DPQueue.init dp t g) 1 w1 w2).2.1 = [⟨dp, t, g⟩]) := by
  refine ⟨?_, ?_, ?_, ?_⟩
  · intro k
    have hand : k &&& 1 = k % 2 := Nat.and_one_is_mod k
    have hk2 : k % 2 = 0 ∨ k % 2 = 1 := by omega
    constructor
    · rcases hk2 with h0 | h1
      · simp [herdOfKIdx, hand, h0]
      · simp [herdOfKIdx, hand, h1]
    · rcases hk2 with h0 | h1
      · simp [herdOfKIdx, hand, h0]
      · simp [herdOfKIdx, hand, h1]
  · intro dp hk
    have h := decodeDP_encodeDP dp
    have hkk : (decodeDP (encodeDP dp)).2.2 = dp.kIdx := by
      rw [h]
      exact Nat.mod_eq_of_lt hk
    exact ⟨hkk, by rw [hkk]⟩
  · intro dp h2
    rw [encodeDP, encodeDP]
  · intro dp t g w1 w2
    have hne : (DPQueue.push DPQueue.init dp t g).queue ≠ [] := by
      simp [DPQueue.push, DPQueue.init]
    have h := pop_batch2_of_ready (DPQueue.push DPQueue.init dp t g) 1 w1 w2 rfl hne
    rw [h]
    dsimp only
    have hq : (DPQueue.push DPQueue.init dp t g).queue = [⟨dp, t, g⟩] := by
      simp [DPQueue.push, DPQueue.init]
    rw [hq]
    rw [batchLoop_full 1 _ _ w2 (by simp)]
    rfl

/-- Claim C4 witness: a concrete kIdx = 5 (odd, WILD) survives the wire
round trip and the queue hop with its parity intact. -/
theorem c4_witness :
    (herdOfKIdx 4 = Herd.TAME ↔ (4 : Nat) % 2 = 0) ∧
    ((5 : Nat) < 2 ^ 64 ∧ (decodeDP (encodeDP ⟨3, 4, 5, 6⟩)).2.2 = 5) ∧
    (pop_batch2 (DPQueue.push DPQueue.init ⟨3, 4, 5, 6⟩ 7 8) 1 [] []).2.1
      = [⟨⟨3, 4, 5, 6⟩, 7, 8⟩] := by
  refine ⟨(c4_herd_is_kidx_parity.1 4).1, ⟨by norm_num, ?_⟩, ?_⟩
  · exact (c4_herd_is_kidx_parity.2.1 ⟨3, 4, 5, 6⟩ (by norm_num)).1
  · exact c4_herd_is_kidx_parity.2.2.2 ⟨3, 4, 5, 6⟩ 7 8 [] []

/-- Claim C10: the two DPQueue definitions in DPQueue.h differ only by the
batching wait in pop_batch.  When the queue already holds at least maxCount
items and shutdown is not set, both pop_batch versions return the same
maxCount items in the same order, perform the same totalPopped update, and
leave the same queue state; in particular the batching loop of the second
version exits without consuming a single wait. -/
theorem c10_pop_batch_versions_agree (q : DPQueue) (mc : Nat) (w1 w2 : List WaitEv)
    (hs : q.shutdown = false) (hmc : 0 < mc) (hlen : mc ≤ q.queue.length) :
    pop_batch1 q mc w1 = pop_batch2 q mc w1 w2 ∧
    (pop_batch1 q mc w1).2.1 = q.queue.take mc ∧
    (pop_batch1 q mc w1).2.1.length = mc ∧
    (pop_batch1 q mc w1).1.queue = q.queue.drop mc ∧
    (pop_batch1 q mc w1).1.totalPopped = q.totalPopped + mc ∧
    (pop_batch1 q mc w1).1.totalPushed = q.totalPushed ∧
    (pop_batch1 q mc w1).2.2.1 = true := by
  have h0 : 0 < q.queue.length := lt_of_lt_of_le hmc hlen
  have hne : q.queue ≠ [] := by
    intro h
    rw [h] at h0
    simp at h0
  have hmin : min mc q.queue.length = mc := by omega
  have htake : (q.queue.take mc).length = mc := by
    rw [List.length_take]
    omega
  have hbne : q.queue.take mc ≠ [] := by
    intro hx
    rw [hx] at htake
    simp only [List.length_nil] at htake
    omega
  have h1 := pop_batch1_of_ready q mc w1 hs hne
  have h2 := pop_batch2_of_ready q mc w1 w2 hs hne
  rw [batchLoop_full mc _ _ w2 (le_of_eq htake.symm)] at h2
  dsimp only at h2
  rw [hmin] at h1 h2
  refine ⟨h1.trans h2.symm, ?_, ?_, ?_, ?_, ?_, ?_⟩
  · rw [h1]
  · rw [h1]
    exact htake
  · rw [h1]
  · rw [h1]
  · rw [h1]
  · rw [h1]
    simp [hbne]

/-- Claim C10 witness: on a concrete queue of three items with maxCount
two, both pop_batch versions return the same two items and the same
state. -/
theorem c10_witness :
    ((⟨[it1, it2, it3], false, 3, 0⟩ : DPQueue).shutdown = false ∧
      0 < 2 ∧
      2 ≤ (⟨[it1, it2, it3], false, 3, 0⟩ : DPQueue).queue.length) ∧
    pop_batch1 ⟨[it1, it2, it3], false, 3, 0⟩ 2 [([], true)]
      = pop_batch2 ⟨[it1, it2, it3], false, 3, 0⟩ 2 [([], true)] [([], true)] ∧
    (pop_batch1 ⟨[it1, it2, it3], false, 3, 0⟩ 2 [([], true)]).2.1 = [it1, it2] := by
  refine ⟨⟨rfl, by decide, by decide⟩, ?_, ?_⟩
  · exact (c10_pop_batch_versions_agree ⟨[it1, it2, it3], false, 3, 0⟩ 2
      [([], true)] [([], true)] rfl (by decide) (by decide)).1
  · have h := (c10_pop_batch_versions_agree ⟨[it1, it2, it3], false, 3, 0⟩ 2
      [([], true)] [([], true)] rfl (by decide) (by decide)).2.1
    rw [h]
    rfl

end Kangaroo
